import Mathlib

/-!
Verification of the trainer repository: the `Exercise` data model embedded from
`src/src/lib/my_lib.cc` (the `trainer::api::Exercise` class), and the Training
Sequencer and Step Loader, which the repository documents (README.md, design
spec) but whose code is not present under src/; those are modelled from the
spec's words.
-/

/-! ## Exercise (embedded from trainer/api/exercise.h in src/src/lib/my_lib.cc) -/

/-- The `ExerciseType` enum: `BARBELL`, `KETTLEBELL`. -/
inductive ExerciseType
  | BARBELL
  | KETTLEBELL
deriving DecidableEq

/-- The private fields of `trainer::api::Exercise`: `int id`, `std::string name`,
`std::string description`, `ExerciseType exerciseType`. -/
structure Exercise where
  id : Int
  name : String
  description : String
  exerciseType : ExerciseType
deriving DecidableEq

/-- The four-argument constructor
`Exercise(int id, std::string name, ExerciseType exerciseType, std::string description)`:
stores each argument in its field. -/
def Exercise.mk4 (id : Int) (name : String) (exerciseType : ExerciseType)
    (description : String) : Exercise :=
  { id := id, name := name, description := description, exerciseType := exerciseType }

/-- The three-argument constructor `Exercise(name, exerciseType, description)`,
which delegates to the four-argument constructor with `id = 0`. -/
def Exercise.mk3 (name : String) (exerciseType : ExerciseType)
    (description : String) : Exercise :=
  Exercise.mk4 0 name exerciseType description

/-- The two-argument constructor `Exercise(name, exerciseType)`, which delegates
to the three-argument constructor with `description = ""`. -/
def Exercise.mk2 (name : String) (exerciseType : ExerciseType) : Exercise :=
  Exercise.mk3 name exerciseType ""

/-- `getId()`: returns the stored id when it is nonzero, `std::nullopt` otherwise. -/
def Exercise.getId (e : Exercise) : Option Int :=
  if e.id ≠ 0 then some e.id else none

/-- `getName()`: returns the stored name. -/
def Exercise.getName (e : Exercise) : String :=
  e.name

/-- `getDescription()`: returns the stored description. -/
def Exercise.getDescription (e : Exercise) : String :=
  e.description

/-- `getExerciseType()`: returns the stored exercise type. -/
def Exercise.getExerciseType (e : Exercise) : ExerciseType :=
  e.exerciseType

/-! ## Training Sequencer -/

/-- Modelled from the spec: a `TrainingSequence` is an "ordered, cyclic list of
TrainingPlan identifiers"; the repository has no Sequencer code under src/, only
the README's description, so the sequence is modelled as its list of plan ids. -/
structure TrainingSequence where
  plans : List Nat
deriving DecidableEq

/-- Modelled from the spec: the Sequencer's error taxonomy entry `EmptySequence`. -/
inductive SequencerError
  | EmptySequence
deriving DecidableEq

/-- Modelled from the spec: `next(sequence, lastDispensedIndex) -> planId`.
Output is "the plan at `(lastDispensedIndex + 1) mod length`; on first call, the
plan at index 0"; it "fails with `EmptySequence` if the sequence has zero plans". -/
def Sequencer.next (seq : TrainingSequence) (lastDispensedIndex : Option Nat) :
    Except SequencerError Nat :=
  if h : 0 < seq.plans.length then
    match lastDispensedIndex with
    | none => Except.ok (seq.plans.get ⟨0, h⟩)
    | some i => Except.ok (seq.plans.get ⟨(i + 1) % seq.plans.length, Nat.mod_lt _ h⟩)
  else
    Except.error SequencerError.EmptySequence

/-! ## Theorems about Exercise (claims C1 to C4) -/

/-- Claim C1, counterexample: the claim says every Exercise constructible
through the public constructors has a non-empty name, but the two-argument
constructor accepts the empty string and stores it: `Exercise("", BARBELL)`
is constructible and its `getName()` is the empty string. -/
theorem exercise_empty_name_constructible :
    (Exercise.mk2 "" ExerciseType.BARBELL).getName = "" := by
  rfl

/-- Claim C1 (amended): the public Exercise constructors do not enforce name
non-emptiness; each constructor stores the supplied name verbatim (so an
Exercise whose name is the empty string is constructible). -/
theorem exercise_name_stored_verbatim (id : Int) (name : String)
    (ty : ExerciseType) (desc : String) :
    (Exercise.mk2 name ty).getName = name
    ∧ (Exercise.mk3 name ty desc).getName = name
    ∧ (Exercise.mk4 id name ty desc).getName = name := by
  refine ⟨rfl, rfl, rfl⟩

/-- Claim C2: every Exercise constructed without an explicit id (via the
two-argument or the three-argument constructor) has `getId() = std::nullopt`. -/
theorem exercise_id_unset_before_persistence (name : String)
    (ty : ExerciseType) (desc : String) :
    (Exercise.mk2 name ty).getId = none
    ∧ (Exercise.mk3 name ty desc).getId = none := by
  constructor <;> simp [Exercise.mk2, Exercise.mk3, Exercise.mk4, Exercise.getId]

/-- Claim C3: `getId()` returns the stored id exactly when it is nonzero and
`std::nullopt` exactly when the stored id is 0; an Exercise built by the
four-argument constructor with explicit id 0 is indistinguishable through
`getId()` from one built without an id (0 is the unset sentinel). -/
theorem exercise_id_zero_sentinel (id : Int) (name : String)
    (ty : ExerciseType) (desc : String) :
    (id ≠ 0 → (Exercise.mk4 id name ty desc).getId = some id)
    ∧ (Exercise.mk4 0 name ty desc).getId = none
    ∧ (Exercise.mk4 0 name ty desc).getId = (Exercise.mk3 name ty desc).getId := by
  refine ⟨fun h => ?_, by simp [Exercise.mk4, Exercise.getId], rfl⟩
  simp [Exercise.mk4, Exercise.getId, h]

/-- Claim C3, witness: the sentinel behaviour at concrete inputs, id 7 versus id 0. -/
theorem exercise_id_zero_sentinel_holds :
    (Exercise.mk4 7 "Squat" ExerciseType.BARBELL "").getId = some 7
    ∧ (Exercise.mk4 0 "Squat" ExerciseType.BARBELL "").getId = none := by
  have h := exercise_id_zero_sentinel 7 "Squat" ExerciseType.BARBELL ""
  exact ⟨h.1 (by decide), h.2.1⟩

/-- Claim C4: the getters `getName()`, `getExerciseType()` and `getDescription()`
return exactly what was passed to the constructor, and the two-argument
constructor yields an empty description. -/
theorem exercise_getters_return_inputs (id : Int) (name : String)
    (ty : ExerciseType) (desc : String) :
    (Exercise.mk4 id name ty desc).getName = name
    ∧ (Exercise.mk4 id name ty desc).getExerciseType = ty
    ∧ (Exercise.mk4 id name ty desc).getDescription = desc
    ∧ (Exercise.mk3 name ty desc).getName = name
    ∧ (Exercise.mk3 name ty desc).getExerciseType = ty
    ∧ (Exercise.mk3 name ty desc).getDescription = desc
    ∧ (Exercise.mk2 name ty).getName = name
    ∧ (Exercise.mk2 name ty).getExerciseType = ty
    ∧ (Exercise.mk2 name ty).getDescription = "" := by
  refine ⟨rfl, rfl, rfl, rfl, rfl, rfl, rfl, rfl, rfl⟩

/-! ## Theorems about the Sequencer (claims C5 and C6) -/

/-- Claim C5: on a non-empty sequence, `next` with a last-dispensed index `i`
returns the plan at index `(i + 1) mod length`, and `next` on a first call
(no last-dispensed index) returns the plan at index 0. -/
theorem sequencer_next_cyclic (seq : TrainingSequence) (i : Nat)
    (h : 0 < seq.plans.length) :
    Sequencer.next seq (some i)
      = Except.ok (seq.plans.get ⟨(i + 1) % seq.plans.length, Nat.mod_lt _ h⟩)
    ∧ Sequencer.next seq none = Except.ok (seq.plans.get ⟨0, h⟩) := by
  constructor <;> simp [Sequencer.next, h]

/-- Claim C5, witness: on the three-plan sequence `[10, 20, 30]` with last
index 2, `next` wraps around to plan 10, and the first call also yields plan 10. -/
theorem sequencer_next_cyclic_holds :
    Sequencer.next ⟨[10, 20, 30]⟩ (some 2) = Except.ok 10
    ∧ Sequencer.next ⟨[10, 20, 30]⟩ none = Except.ok 10 := by
  have h := sequencer_next_cyclic ⟨[10, 20, 30]⟩ 2 (by decide)
  exact ⟨h.1.trans rfl, h.2.trans rfl⟩

/-- Claim C6: `next` fails with `EmptySequence` exactly when the sequence has
zero plans, and on every non-empty sequence it succeeds, returning one of the
sequence's plan ids. -/
theorem sequencer_next_empty_iff (seq : TrainingSequence) (last : Option Nat) :
    (Sequencer.next seq last = Except.error SequencerError.EmptySequence
      ↔ seq.plans.length = 0)
    ∧ (0 < seq.plans.length →
        ∃ p, p ∈ seq.plans ∧ Sequencer.next seq last = Except.ok p) := by
  constructor
  · constructor
    · intro h
      by_contra hne
      have hpos : 0 < seq.plans.length := Nat.pos_of_ne_zero hne
      cases last <;> simp [Sequencer.next, hpos] at h
    · intro h
      have : ¬ 0 < seq.plans.length := by omega
      simp [Sequencer.next, this]
  · intro hpos
    cases last with
    | none =>
        exact ⟨seq.plans.get ⟨0, hpos⟩, seq.plans.get_mem 0 hpos,
          by simp [Sequencer.next, hpos]⟩
    | some i =>
        exact ⟨seq.plans.get ⟨(i + 1) % seq.plans.length, Nat.mod_lt _ hpos⟩,
          seq.plans.get_mem _ (Nat.mod_lt _ hpos), by simp [Sequencer.next, hpos]⟩

/-- Claim C6, witness: on the empty sequence `next` fails with `EmptySequence`;
on `[10, 20, 30]` it succeeds with a member plan. -/
theorem sequencer_next_empty_iff_holds :
    Sequencer.next ⟨[]⟩ none = Except.error SequencerError.EmptySequence
    ∧ ∃ p, p ∈ ([10, 20, 30] : List Nat)
        ∧ Sequencer.next ⟨[10, 20, 30]⟩ (some 0) = Except.ok p := by
  constructor
  · exact (sequencer_next_empty_iff ⟨[]⟩ none).1.mpr rfl
  · exact (sequencer_next_empty_iff ⟨[10, 20, 30]⟩ (some 0)).2 (by decide)

/-! ## Step Loader: schedule construction -/

/-- Modelled from the spec: one pending set update of a StepLoadSchedule, a
pair of set index and effective-not-before date (dates are in days). -/
structure SetUpdate where
  setIndex : Nat
  effectiveDate : Nat
deriving DecidableEq

/-- Modelled from the spec: a StepLoadSchedule holds, per lift, "an ordered
list of five pending (set-index, effective-not-before-date) updates plus the
new weight value and a minimum hold until date"; updates already consumed are
kept in `applied`. -/
structure StepLoadSchedule where
  lift : Nat
  newWeight : Nat
  updates : List SetUpdate
  applied : List SetUpdate
  holdUntil : Nat
deriving DecidableEq

/-- Modelled from the spec: the "randomized-but-bounded delay of 2 to 4 weeks
(inclusive)" between consecutive set updates, realized as "a pure function of
the schedule's identity and transition index (e.g., a seeded derivation)";
always between 14 and 28 days. -/
def chooseDelay (seed k : Nat) : Nat :=
  14 + (seed + 7 * k) % 15

/-- Modelled from the spec: schedule initialization on a step-load trigger.
The five target sets are scheduled "in the fixed order 3, 4, 2, 5, 1"; set 3
is effective at the trigger date and each later update becomes eligible a
seeded delay of 2 to 4 weeks after the previous update's effective date; the
minimum hold runs at least 4 weeks past the final update. -/
def mkSchedule (lift triggerDate seed newWeight : Nat) : StepLoadSchedule :=
  let d0 := triggerDate
  let d1 := d0 + chooseDelay seed 0
  let d2 := d1 + chooseDelay seed 1
  let d3 := d2 + chooseDelay seed 2
  let d4 := d3 + chooseDelay seed 3
  { lift := lift
    newWeight := newWeight
    updates := [⟨3, d0⟩, ⟨4, d1⟩, ⟨2, d2⟩, ⟨5, d3⟩, ⟨1, d4⟩]
    applied := []
    holdUntil := d4 + 28 }

/-- Claim C8: the five set updates of a triggered schedule are in the fixed
order 3, 4, 2, 5, 1, and each update's effective date is at least 14 and at
most 28 days after the previous update's effective date (so never before it). -/
theorem stepload_update_order_and_spacing (lift t seed w : Nat) :
    (mkSchedule lift t seed w).updates.map SetUpdate.setIndex = [3, 4, 2, 5, 1]
    ∧ List.Chain'
        (fun a b => a.effectiveDate + 14 ≤ b.effectiveDate
          ∧ b.effectiveDate ≤ a.effectiveDate + 28)
        (mkSchedule lift t seed w).updates := by
  constructor
  · rfl
  · simp only [mkSchedule, List.chain'_cons, List.chain'_singleton, and_true]
    have h0 : (seed + 7 * 0) % 15 < 15 := Nat.mod_lt _ (by omega)
    have h1 : (seed + 7 * 1) % 15 < 15 := Nat.mod_lt _ (by omega)
    have h2 : (seed + 7 * 2) % 15 < 15 := Nat.mod_lt _ (by omega)
    have h3 : (seed + 7 * 3) % 15 < 15 := Nat.mod_lt _ (by omega)
    simp only [chooseDelay]
    omega

/-! ## Step Loader: the evaluate contract -/

/-- Modelled from the spec: the per-lift Step Loader states
`Stable`, `Triggered`, `Progressing`, `Holding`. -/
inductive ScheduleState
  | Stable
  | Triggered
  | Progressing
  | Holding
deriving DecidableEq

/-- Modelled from the spec: a `PlanMutation` is a "(planId, setIndex, newWeight)"
change to apply to the Training Plan Catalog. -/
structure PlanMutation where
  planId : Nat
  setIndex : Nat
  newWeight : Nat
deriving DecidableEq

/-- Modelled from the spec: the state threaded through `evaluate` for one lift:
its schedule, the machine state, and the explicit current working weight
("global mutable current weight per lift becomes an explicit value threaded
through evaluate calls"). -/
structure EvalState where
  sched : StepLoadSchedule
  state : ScheduleState
  currentWeight : Nat
deriving DecidableEq

/-- Modelled from the spec: configuration of the Step Loader. The RPE trend
rule "is a configuration parameter, not a hard-coded constant", the weight
increment is lift-specific, and the delay seed is a pure derivation from the
schedule's identity. -/
structure StepConfig where
  trend : List Nat → Bool
  increment : Nat
  seed : Nat

/-- Modelled from the spec: split a pending-update list into the prefix of
updates whose effective date has arrived (date ≤ now) and the rest. -/
def popDue (now : Nat) : List SetUpdate → List SetUpdate × List SetUpdate
  | [] => ([], [])
  | u :: rest =>
    if u.effectiveDate ≤ now then
      let res := popDue now rest
      (u :: res.1, res.2)
    else
      ([], u :: rest)

/-- Modelled from the spec: consume every pending update whose effective date
is ≤ now, moving it to `applied` and emitting one `PlanMutation` per consumed
update ("sets whose effective date is ≤ now and not yet applied"). -/
def applyDue (planId now : Nat) (sched : StepLoadSchedule) :
    StepLoadSchedule × List PlanMutation :=
  let res := popDue now sched.updates
  ({ sched with updates := res.2, applied := sched.applied ++ res.1 },
    res.1.map (fun u => PlanMutation.mk planId u.setIndex sched.newWeight))

/-- Modelled from the spec: one `Triggered`/`Progressing` evaluation step:
apply the due updates; when the pending list empties the schedule enters
`Holding` with a mandatory hold of at least 4 weeks from now, otherwise it is
`Progressing`. -/
def progressStep (lift now : Nat) (es : EvalState) : EvalState × List PlanMutation :=
  let res := applyDue lift now es.sched
  if res.1.updates.isEmpty then
    ({ es with
        sched := { res.1 with holdUntil := max res.1.holdUntil (now + 28) },
        state := ScheduleState.Holding }, res.2)
  else
    ({ es with sched := res.1, state := ScheduleState.Progressing }, res.2)

/-- Modelled from the spec:
`evaluate(lift, now, logHistory, currentSchedule) -> (updatedSchedule, planMutations)`.
A `Holding` schedule whose hold window elapsed returns to `Stable`; a `Stable`
lift whose RPE trend rule fires triggers a new schedule at the new weight
(current working weight plus the configured increment) and applies the due
updates; a `Triggered`/`Progressing` schedule applies the due updates. -/
def evaluate (cfg : StepConfig) (lift now : Nat) (logs : List Nat)
    (es : EvalState) : EvalState × List PlanMutation :=
  let es0 := if es.state = ScheduleState.Holding ∧ es.sched.holdUntil ≤ now
             then { es with state := ScheduleState.Stable } else es
  if es0.state = ScheduleState.Stable then
    if cfg.trend logs then
      let w := es0.currentWeight + cfg.increment
      progressStep lift now
        { sched := mkSchedule lift now cfg.seed w,
          state := ScheduleState.Triggered, currentWeight := w }
    else
      (es0, [])
  else if es0.state = ScheduleState.Holding then
    (es0, [])
  else
    progressStep lift now es0

/-- Helper: the remaining list returned by `popDue` is a fixpoint of `popDue`. -/
theorem popDue_fix (now : Nat) (l : List SetUpdate) :
    popDue now (popDue now l).2 = ([], (popDue now l).2) := by
  induction l with
  | nil => rfl
  | cons u rest ih =>
      by_cases h : u.effectiveDate ≤ now
      · simpa [popDue, h] using ih
      · simp [popDue, h]

/-- Helper: the schedule returned by `applyDue` is a fixpoint of `applyDue`:
running it again at the same `now` changes nothing and emits no mutations. -/
theorem applyDue_fix (planId now : Nat) (sched : StepLoadSchedule) :
    applyDue planId now (applyDue planId now sched).1
      = ((applyDue planId now sched).1, []) := by
  simp [applyDue, popDue_fix]

/-- Helper: evaluating the state produced by `progressStep` again at the same
`now` returns it unchanged with no mutations. -/
theorem evaluate_progressStep_fix (cfg : StepConfig) (lift now : Nat)
    (logs : List Nat) (es : EvalState) :
    evaluate cfg lift now logs (progressStep lift now es).1
      = ((progressStep lift now es).1, []) := by
  unfold progressStep
  by_cases hemp : (applyDue lift now es.sched).1.updates.isEmpty
  · have hmax : ¬ max (applyDue lift now es.sched).1.holdUntil (now + 28) ≤ now := by
      omega
    simp [hemp, evaluate, hmax]
  · simp [hemp, evaluate, progressStep, applyDue_fix]

/-- Claim C10: `evaluate` is idempotent for unchanged `(now, logHistory)`:
feeding the schedule state returned by one call back into `evaluate` with the
same lift, now, log history and configuration returns that state identically
and an empty list of `PlanMutation`s. -/
theorem evaluate_idempotent (cfg : StepConfig) (lift now : Nat)
    (logs : List Nat) (es : EvalState) :
    evaluate cfg lift now logs (evaluate cfg lift now logs es).1
      = ((evaluate cfg lift now logs es).1, []) := by
  by_cases hc : es.state = ScheduleState.Holding ∧ es.sched.holdUntil ≤ now
  · by_cases ht : cfg.trend logs
    · have h1 : evaluate cfg lift now logs es
          = progressStep lift now
              { sched := mkSchedule lift now cfg.seed
                  (es.currentWeight + cfg.increment),
                state := ScheduleState.Triggered,
                currentWeight := es.currentWeight + cfg.increment } := by
        simp [evaluate, hc, ht]
      rw [h1]
      exact evaluate_progressStep_fix cfg lift now logs _
    · have h1 : evaluate cfg lift now logs es
          = ({ es with state := ScheduleState.Stable }, []) := by
        simp [evaluate, hc, ht]
      rw [h1]
      simp [evaluate, ht]
  · cases hst : es.state with
    | Stable =>
        by_cases ht : cfg.trend logs
        · have h1 : evaluate cfg lift now logs es
              = progressStep lift now
                  { sched := mkSchedule lift now cfg.seed
                      (es.currentWeight + cfg.increment),
                    state := ScheduleState.Triggered,
                    currentWeight := es.currentWeight + cfg.increment } := by
            simp [evaluate, hc, hst, ht]
          rw [h1]
          exact evaluate_progressStep_fix cfg lift now logs _
        · have h1 : evaluate cfg lift now logs es = (es, []) := by
            simp [evaluate, hc, hst, ht]
          rw [h1]
          simp [evaluate, hc, hst, ht]
    | Triggered =>
        have h1 : evaluate cfg lift now logs es = progressStep lift now es := by
          simp [evaluate, hc, hst]
        rw [h1]
        exact evaluate_progressStep_fix cfg lift now logs es
    | Progressing =>
        have h1 : evaluate cfg lift now logs es = progressStep lift now es := by
          simp [evaluate, hc, hst]
        rw [h1]
        exact evaluate_progressStep_fix cfg lift now logs es
    | Holding =>
        have hlt : ¬ es.sched.holdUntil ≤ now := by
          intro hle
          exact hc ⟨hst, hle⟩
        have h1 : evaluate cfg lift now logs es = (es, []) := by
          simp [evaluate, hst, hlt]
        rw [h1]
        simp [evaluate, hst, hlt]

/-! ## Step Loader: event machine over schedules -/

/-- Modelled from the spec: one lift's schedule record in the Step Loader,
carrying the schedule and its machine state. -/
structure ScheduleRec where
  lift : Nat
  sched : StepLoadSchedule
  state : ScheduleState
deriving DecidableEq

/-- Modelled from the spec: the Step Loader's overall state, the schedule
records created so far plus the largest `now` seen, since "transitions must be
applied in strict chronological order of now values passed by the caller". -/
structure LoaderState where
  recs : List ScheduleRec
  lastNow : Nat
deriving DecidableEq

/-- The Step Loader's initial state: no schedules. -/
def initLoader : LoaderState :=
  ⟨[], 0⟩

/-- A record counts as active for a lift when it is that lift's and is in a
non-`Stable` state (`Triggered`, `Progressing` or `Holding`). -/
def isActiveFor (lift : Nat) (r : ScheduleRec) : Bool :=
  r.lift == lift && !(r.state == ScheduleState.Stable)

/-- Number of active schedule records for a lift. -/
def activeCount (s : LoaderState) (lift : Nat) : Nat :=
  (s.recs.filter (isActiveFor lift)).length

/-- A record that can absorb a set update: that lift's, in state `Triggered`
or `Progressing`. -/
def progressable (lift : Nat) (r : ScheduleRec) : Bool :=
  r.lift == lift
    && (r.state == ScheduleState.Triggered || r.state == ScheduleState.Progressing)

/-- A record of that lift in state `Holding`. -/
def holdingFor (lift : Nat) (r : ScheduleRec) : Bool :=
  r.lift == lift && r.state == ScheduleState.Holding

/-- Modelled from the spec: the events driving the Step Loader state machine:
an RPE-evidence trigger, a due set update, hold-window expiry, and the
caller-initiated reset to `Stable`. -/
inductive Event
  | trigger (lift now seed weight : Nat)
  | applyUpd (lift now : Nat)
  | holdElapse (lift now : Nat)
  | reset (lift : Nat)
deriving DecidableEq

/-- Modelled from the spec: apply one due set update to a record. The head
pending update must be due; when it was the last one, the record enters
`Holding` with "a mandatory hold of at least 4 weeks", otherwise it is
`Progressing`. -/
def applyRec (now : Nat) (r : ScheduleRec) : Option ScheduleRec :=
  match r.sched.updates with
  | [] => none
  | u :: rest =>
    if u.effectiveDate ≤ now then
      if rest.isEmpty then
        let sch : StepLoadSchedule :=
          { r.sched with
            updates := []
            applied := r.sched.applied ++ [u]
            holdUntil := max r.sched.holdUntil (now + 28) }
        some { r with sched := sch, state := ScheduleState.Holding }
      else
        let sch : StepLoadSchedule :=
          { r.sched with
            updates := rest
            applied := r.sched.applied ++ [u] }
        some { r with sched := sch, state := ScheduleState.Progressing }
    else
      none

/-- Modelled from the spec: `Holding → Stable` is "automatic once the hold
window elapses". -/
def elapseRec (now : Nat) (r : ScheduleRec) : Option ScheduleRec :=
  if r.sched.holdUntil ≤ now then
    some { r with state := ScheduleState.Stable }
  else
    none

/-- Rewrite the first record satisfying `p` with `f`; fails when no record
satisfies `p` or `f` fails on it. -/
def updateFirst (p : ScheduleRec → Bool) (f : ScheduleRec → Option ScheduleRec) :
    List ScheduleRec → Option (List ScheduleRec)
  | [] => none
  | r :: rs =>
    if p r then
      match f r with
      | some r2 => some (r2 :: rs)
      | none => none
    else
      match updateFirst p f rs with
      | some rs2 => some (r :: rs2)
      | none => none

/-- Modelled from the spec: one Step Loader transition. `Stable → Triggered`
fires only when no schedule for the lift is already active ("a step-load event
must never be triggered while a schedule is already Triggered/Progressing/
Holding for the same lift"); update application and hold expiry rewrite the
matching record; reset is the caller-initiated return to `Stable`. Timed
events require `now` to be no earlier than every previously seen `now`. -/
def step (s : LoaderState) : Event → Option LoaderState
  | Event.trigger lift now seed weight =>
    if s.lastNow ≤ now ∧ s.recs.filter (isActiveFor lift) = [] then
      some ⟨⟨lift, mkSchedule lift now seed weight, ScheduleState.Triggered⟩ :: s.recs, now⟩
    else
      none
  | Event.applyUpd lift now =>
    if s.lastNow ≤ now then
      match updateFirst (progressable lift) (applyRec now) s.recs with
      | some recs2 => some ⟨recs2, now⟩
      | none => none
    else
      none
  | Event.holdElapse lift now =>
    if s.lastNow ≤ now then
      match updateFirst (holdingFor lift) (elapseRec now) s.recs with
      | some recs2 => some ⟨recs2, now⟩
      | none => none
    else
      none
  | Event.reset lift =>
    some ⟨s.recs.map (fun r =>
      if r.lift == lift then { r with state := ScheduleState.Stable } else r), s.lastNow⟩

/-- Run a list of events from a state, failing when any step fails. -/
def run (s : LoaderState) : List Event → Option LoaderState
  | [] => some s
  | e :: es =>
    match step s e with
    | some s2 => run s2 es
    | none => none

/-! ## At most one active schedule per lift (claim C7) -/

/-- Helper: a successful `applyRec` keeps the lift and lands in a non-`Stable`
state. -/
theorem applyRec_some (now : Nat) (r r2 : ScheduleRec)
    (h : applyRec now r = some r2) :
    r2.lift = r.lift ∧ r2.state ≠ ScheduleState.Stable := by
  unfold applyRec at h
  split at h
  · exact absurd h (by simp)
  · split at h
    · split at h
      · simp only [Option.some.injEq] at h
        subst h
        exact ⟨rfl, by simp⟩
      · simp only [Option.some.injEq] at h
        subst h
        exact ⟨rfl, by simp⟩
    · exact absurd h (by simp)

/-- Helper: a successful `elapseRec` keeps the lift and lands in `Stable`,
and only fires once the hold date has arrived. -/
theorem elapseRec_some (now : Nat) (r r2 : ScheduleRec)
    (h : elapseRec now r = some r2) :
    r2.lift = r.lift ∧ r2.state = ScheduleState.Stable
      ∧ r.sched.holdUntil ≤ now := by
  unfold elapseRec at h
  by_cases hh : r.sched.holdUntil ≤ now
  · rw [if_pos hh] at h
    simp only [Option.some.injEq] at h
    subst h
    exact ⟨rfl, rfl, hh⟩
  · rw [if_neg hh] at h
    exact absurd h (by simp)

/-- Helper: when the rewrite performed by `updateFirst` never turns a record
satisfying `q` out of one violating it, the count of `q`-records cannot grow. -/
theorem updateFirst_filter_le (p q : ScheduleRec → Bool)
    (f : ScheduleRec → Option ScheduleRec)
    (hf : ∀ r r2, p r = true → f r = some r2 → q r2 = true → q r = true) :
    ∀ l l2, updateFirst p f l = some l2 →
      (l2.filter q).length ≤ (l.filter q).length := by
  intro l
  induction l with
  | nil => intro l2 h; exact absurd h (by simp [updateFirst])
  | cons r rs ih =>
      intro l2 h
      unfold updateFirst at h
      by_cases hp : p r
      · rw [if_pos hp] at h
        cases hfr : f r with
        | none => rw [hfr] at h; exact absurd h (by simp)
        | some r2 =>
            rw [hfr] at h
            simp only [Option.some.injEq] at h
            subst h
            simp only [List.filter_cons]
            by_cases hq2 : q r2
            · have hq : q r = true := hf r r2 hp hfr hq2
              simp [hq2, hq]
            · by_cases hq : q r <;> simp [hq2, hq]
      · rw [if_neg hp] at h
        cases hu : updateFirst p f rs with
        | none => rw [hu] at h; exact absurd h (by simp)
        | some rs2 =>
            rw [hu] at h
            simp only [Option.some.injEq] at h
            subst h
            have hle := ih rs2 hu
            simp only [List.filter_cons]
            by_cases hq : q r <;> simp [hq] <;> omega

/-- Helper: mapping a function that never turns a record satisfying `q` out of
one violating it cannot grow the count of `q`-records. -/
theorem filter_length_map_le (g : ScheduleRec → ScheduleRec)
    (q : ScheduleRec → Bool) (hg : ∀ r, q (g r) = true → q r = true)
    (l : List ScheduleRec) :
    ((l.map g).filter q).length ≤ (l.filter q).length := by
  induction l with
  | nil => simp
  | cons r rs ih =>
      simp only [List.map_cons, List.filter_cons]
      by_cases hq2 : q (g r)
      · have hq := hg r hq2
        simp only [hq2, hq, if_pos, List.length_cons]
        omega
      · by_cases hq : q r <;> simp [hq2, hq] <;> omega

/-- Helper: every single Step Loader transition preserves "at most one active
schedule per lift". -/
theorem step_preserves_inv (s s2 : LoaderState) (e : Event)
    (hs : ∀ lift, activeCount s lift ≤ 1) (h : step s e = some s2) :
    ∀ lift, activeCount s2 lift ≤ 1 := by
  intro lift2
  cases e with
  | trigger lift now seed weight =>
      simp only [step] at h
      by_cases hg : s.lastNow ≤ now ∧ s.recs.filter (isActiveFor lift) = []
      · rw [if_pos hg] at h
        simp only [Option.some.injEq] at h
        subst h
        unfold activeCount
        simp only [List.filter_cons]
        by_cases hl : lift = lift2
        · subst hl
          have hact : isActiveFor lift
              ⟨lift, mkSchedule lift now seed weight, ScheduleState.Triggered⟩ = true := by
            simp [isActiveFor]
          rw [if_pos hact, hg.2]
          simp
        · have hact : isActiveFor lift2
              ⟨lift, mkSchedule lift now seed weight, ScheduleState.Triggered⟩ = false := by
            simp [isActiveFor]
            intro hc
            exact absurd hc hl
          rw [if_neg (by simp [hact])]
          exact hs lift2
      · rw [if_neg hg] at h
        exact absurd h (by simp)
  | applyUpd lift now =>
      simp only [step] at h
      by_cases ht : s.lastNow ≤ now
      · rw [if_pos ht] at h
        cases hu : updateFirst (progressable lift) (applyRec now) s.recs with
        | none => rw [hu] at h; exact absurd h (by simp)
        | some recs2 =>
            rw [hu] at h
            simp only [Option.some.injEq] at h
            subst h
            refine le_trans (updateFirst_filter_le _ _ _ ?_ s.recs recs2 hu) (hs lift2)
            intro r r2 hp hfr hq
            obtain ⟨hlift, _⟩ := applyRec_some now r r2 hfr
            simp only [isActiveFor, Bool.and_eq_true] at hq ⊢
            refine ⟨by rw [← hlift]; exact hq.1, ?_⟩
            simp only [progressable, Bool.and_eq_true, Bool.or_eq_true] at hp
            rcases hp.2 with h1 | h1 <;> rw [beq_iff_eq] at h1 <;> simp [h1]
      · rw [if_neg ht] at h
        exact absurd h (by simp)
  | holdElapse lift now =>
      simp only [step] at h
      by_cases ht : s.lastNow ≤ now
      · rw [if_pos ht] at h
        cases hu : updateFirst (holdingFor lift) (elapseRec now) s.recs with
        | none => rw [hu] at h; exact absurd h (by simp)
        | some recs2 =>
            rw [hu] at h
            simp only [Option.some.injEq] at h
            subst h
            refine le_trans (updateFirst_filter_le _ _ _ ?_ s.recs recs2 hu) (hs lift2)
            intro r r2 _ hfr hq
            obtain ⟨_, hstable, _⟩ := elapseRec_some now r r2 hfr
            simp only [isActiveFor, Bool.and_eq_true, hstable] at hq
            simp at hq
      · rw [if_neg ht] at h
        exact absurd h (by simp)
  | reset lift =>
      simp only [step] at h
      simp only [Option.some.injEq] at h
      subst h
      unfold activeCount
      refine le_trans (filter_length_map_le _ _ ?_ s.recs) (hs lift2)
      intro r hq
      by_cases hl : r.lift == lift
      · simp only [if_pos hl, isActiveFor] at hq
        simp at hq
      · simp only [if_neg hl] at hq
        exact hq

/-- Helper: running any event list preserves "at most one active schedule per
lift". -/
theorem run_preserves_inv :
    ∀ (evs : List Event) (s s2 : LoaderState),
      (∀ lift, activeCount s lift ≤ 1) → run s evs = some s2 →
      ∀ lift, activeCount s2 lift ≤ 1 := by
  intro evs
  induction evs with
  | nil =>
      intro s s2 hs h
      simp only [run] at h
      simp only [Option.some.injEq] at h
      subst h
      exact hs
  | cons e es ih =>
      intro s s2 hs h
      simp only [run] at h
      cases hst : step s e with
      | none => rw [hst] at h; exact absurd h (by simp)
      | some s1 => rw [hst] at h; exact ih s1 s2 (step_preserves_inv s s1 e hs hst) h

/-- Claim C7: in every Step Loader state reachable from the initial state,
each lift has at most one schedule in a non-`Stable` state (`Triggered`,
`Progressing` or `Holding`); in particular no `Stable → Triggered` transition
fires while a schedule for the lift is already active, since `step` refuses
the trigger whenever the active filter is non-empty. -/
theorem stepload_at_most_one_active (evs : List Event) (s : LoaderState)
    (h : run initLoader evs = some s) (lift : Nat) :
    activeCount s lift ≤ 1 :=
  run_preserves_inv evs initLoader s
    (fun _ => by simp [activeCount, initLoader]) h lift

/-- Claim C7, witness: the state reached by one trigger event for lift 1 has
at most one active schedule for lift 1. -/
theorem stepload_at_most_one_active_holds :
    activeCount ⟨[⟨1, mkSchedule 1 0 0 5, ScheduleState.Triggered⟩], 0⟩ 1 ≤ 1 :=
  stepload_at_most_one_active [Event.trigger 1 0 0 5]
    ⟨[⟨1, mkSchedule 1 0 0 5, ScheduleState.Triggered⟩], 0⟩ (by decide) 1

/-! ## Hold window blocks retriggering (claim C9) -/

/-- Helper: every successful transition moves `lastNow` forward or keeps it. -/
theorem step_lastNow_le (s s2 : LoaderState) (e : Event)
    (h : step s e = some s2) : s.lastNow ≤ s2.lastNow := by
  cases e with
  | trigger lift now seed weight =>
      simp only [step] at h
      by_cases hg : s.lastNow ≤ now ∧ s.recs.filter (isActiveFor lift) = []
      · rw [if_pos hg] at h
        simp only [Option.some.injEq] at h
        subst h
        exact hg.1
      · rw [if_neg hg] at h
        exact absurd h (by simp)
  | applyUpd lift now =>
      simp only [step] at h
      by_cases ht : s.lastNow ≤ now
      · rw [if_pos ht] at h
        cases hu : updateFirst (progressable lift) (applyRec now) s.recs with
        | none => rw [hu] at h; exact absurd h (by simp)
        | some recs2 =>
            rw [hu] at h
            simp only [Option.some.injEq] at h
            subst h
            exact ht
      · rw [if_neg ht] at h
        exact absurd h (by simp)
  | holdElapse lift now =>
      simp only [step] at h
      by_cases ht : s.lastNow ≤ now
      · rw [if_pos ht] at h
        cases hu : updateFirst (holdingFor lift) (elapseRec now) s.recs with
        | none => rw [hu] at h; exact absurd h (by simp)
        | some recs2 =>
            rw [hu] at h
            simp only [Option.some.injEq] at h
            subst h
            exact ht
      · rw [if_neg ht] at h
        exact absurd h (by simp)
  | reset lift =>
      simp only [step, Option.some.injEq] at h
      subst h
      exact le_refl _

/-- Helper: a record of the input list either survives `updateFirst` untouched
or is the one record it rewrote. -/
theorem updateFirst_mem (p : ScheduleRec → Bool)
    (f : ScheduleRec → Option ScheduleRec) :
    ∀ l l2, updateFirst p f l = some l2 → ∀ r ∈ l,
      r ∈ l2 ∨ (p r = true ∧ ∃ r2, f r = some r2 ∧ r2 ∈ l2) := by
  intro l
  induction l with
  | nil => intro l2 h; exact absurd h (by simp [updateFirst])
  | cons r0 rs ih =>
      intro l2 h r hr
      unfold updateFirst at h
      by_cases hp : p r0
      · rw [if_pos hp] at h
        cases hfr : f r0 with
        | none => rw [hfr] at h; exact absurd h (by simp)
        | some r2 =>
            rw [hfr] at h
            simp only [Option.some.injEq] at h
            subst h
            rcases List.mem_cons.mp hr with hr0 | hrs
            · subst hr0
              exact Or.inr ⟨hp, r2, hfr, List.mem_cons_self _ _⟩
            · exact Or.inl (List.mem_cons_of_mem _ hrs)
      · rw [if_neg hp] at h
        cases hu : updateFirst p f rs with
        | none => rw [hu] at h; exact absurd h (by simp)
        | some rs2 =>
            rw [hu] at h
            simp only [Option.some.injEq] at h
            subst h
            rcases List.mem_cons.mp hr with hr0 | hrs
            · subst hr0
              exact Or.inl (List.mem_cons_self _ _)
            · rcases ih rs2 hu r hrs with hin | ⟨hpr, r2, hfr, hin⟩
              · exact Or.inl (List.mem_cons_of_mem _ hin)
              · exact Or.inr ⟨hpr, r2, hfr, List.mem_cons_of_mem _ hin⟩

/-- Helper: when `find?` locates the first `p`-record, `updateFirst` rewrites
exactly that record, and its image is in the output list. -/
theorem updateFirst_of_find (p : ScheduleRec → Bool)
    (f : ScheduleRec → Option ScheduleRec) :
    ∀ l l2 r, l.find? p = some r → updateFirst p f l = some l2 →
      ∃ r2, f r = some r2 ∧ r2 ∈ l2 := by
  intro l
  induction l with
  | nil => intro l2 r hf _; exact absurd hf (by simp)
  | cons r0 rs ih =>
      intro l2 r hfind hup
      unfold updateFirst at hup
      by_cases hp : p r0
      · rw [List.find?_cons_of_pos _ hp] at hfind
        simp only [Option.some.injEq] at hfind
        subst hfind
        rw [if_pos hp] at hup
        cases hfr : f r0 with
        | none => rw [hfr] at hup; exact absurd hup (by simp)
        | some r2 =>
            rw [hfr] at hup
            simp only [Option.some.injEq] at hup
            subst hup
            exact ⟨r2, rfl, List.mem_cons_self _ _⟩
      · rw [List.find?_cons_of_neg _ hp] at hfind
        rw [if_neg hp] at hup
        cases hu : updateFirst p f rs with
        | none => rw [hu] at hup; exact absurd hup (by simp)
        | some rs2 =>
            rw [hu] at hup
            simp only [Option.some.injEq] at hup
            subst hup
            obtain ⟨r2, hfr, hin⟩ := ih rs2 r hfind hu
            exact ⟨r2, hfr, List.mem_cons_of_mem _ hin⟩

/-- Invariant used for the hold-window theorem: either some record of the lift
is `Holding` with its hold date at least `b`, or time has already reached `b`. -/
def HoldInv (lift b : Nat) (s : LoaderState) : Prop :=
  (∃ r ∈ s.recs, r.lift = lift ∧ r.state = ScheduleState.Holding
    ∧ b ≤ r.sched.holdUntil)
  ∨ b ≤ s.lastNow

/-- Helper: every transition other than a reset of this lift preserves
`HoldInv`. -/
theorem step_preserves_holdInv (lift b : Nat) (s s2 : LoaderState) (e : Event)
    (hinv : HoldInv lift b s) (h : step s e = some s2)
    (hne : e ≠ Event.reset lift) : HoldInv lift b s2 := by
  rcases hinv with ⟨r, hr, hl, hst, hb⟩ | hlast
  · cases e with
    | trigger lift2 now seed weight =>
        simp only [step] at h
        by_cases hg : s.lastNow ≤ now ∧ s.recs.filter (isActiveFor lift2) = []
        · rw [if_pos hg] at h
          simp only [Option.some.injEq] at h
          subst h
          exact Or.inl ⟨r, List.mem_cons_of_mem _ hr, hl, hst, hb⟩
        · rw [if_neg hg] at h
          exact absurd h (by simp)
    | applyUpd lift2 now =>
        simp only [step] at h
        by_cases ht : s.lastNow ≤ now
        · rw [if_pos ht] at h
          cases hu : updateFirst (progressable lift2) (applyRec now) s.recs with
          | none => rw [hu] at h; exact absurd h (by simp)
          | some recs2 =>
              rw [hu] at h
              simp only [Option.some.injEq] at h
              subst h
              rcases updateFirst_mem _ _ s.recs recs2 hu r hr with hin | ⟨hp, _⟩
              · exact Or.inl ⟨r, hin, hl, hst, hb⟩
              · exfalso
                simp [progressable, hst] at hp
        · rw [if_neg ht] at h
          exact absurd h (by simp)
    | holdElapse lift2 now =>
        simp only [step] at h
        by_cases ht : s.lastNow ≤ now
        · rw [if_pos ht] at h
          cases hu : updateFirst (holdingFor lift2) (elapseRec now) s.recs with
          | none => rw [hu] at h; exact absurd h (by simp)
          | some recs2 =>
              rw [hu] at h
              simp only [Option.some.injEq] at h
              subst h
              rcases updateFirst_mem _ _ s.recs recs2 hu r hr
                with hin | ⟨_, r2, hfr, _⟩
              · exact Or.inl ⟨r, hin, hl, hst, hb⟩
              · obtain ⟨_, _, hhold⟩ := elapseRec_some now r r2 hfr
                exact Or.inr (le_trans hb hhold)
        · rw [if_neg ht] at h
          exact absurd h (by simp)
    | reset lift2 =>
        have hne2 : lift ≠ lift2 := by
          intro hc
          exact hne (by rw [hc])
        simp only [step, Option.some.injEq] at h
        subst h
        refine Or.inl ⟨r, ?_, hl, hst, hb⟩
        have hfix : (fun q => if q.lift == lift2
            then { q with state := ScheduleState.Stable } else q) r = r := by
          have hbeq : (r.lift == lift2) = false := by
            rw [beq_eq_false_iff_ne, hl]
            exact hne2
          simp [hbeq]
        rw [← hfix]
        exact List.mem_map_of_mem _ hr
  · exact Or.inr (le_trans hlast (step_lastNow_le s s2 e h))

/-- Helper: `HoldInv` survives any event sequence containing no reset of the
lift. -/
theorem run_preserves_holdInv (lift b : Nat) :
    ∀ (evs : List Event) (s s2 : LoaderState), HoldInv lift b s →
      run s evs = some s2 → Event.reset lift ∉ evs → HoldInv lift b s2 := by
  intro evs
  induction evs with
  | nil =>
      intro s s2 hinv h _
      simp only [run, Option.some.injEq] at h
      subst h
      exact hinv
  | cons e es ih =>
      intro s s2 hinv h hni
      simp only [run] at h
      cases hst : step s e with
      | none => rw [hst] at h; exact absurd h (by simp)
      | some s1 =>
          rw [hst] at h
          have hne : e ≠ Event.reset lift := by
            intro hc
            exact hni (by rw [← hc]; exact List.mem_cons_self _ _)
          exact ih s1 s2 (step_preserves_holdInv lift b s s1 e hinv hst hne) h
            (fun hc => hni (List.mem_cons_of_mem _ hc))

/-- Claim C9: once the fifth set update of a schedule is applied at time `t`
(set 1, completing the staggered order), no `Stable → Triggered` transition for
that lift can succeed earlier than `t + 28`, regardless of the RPE evidence
behind the trigger attempt and across any interleaving of non-reset events. -/
theorem stepload_hold_blocks_retrigger
    (pre mid : List Event) (lift t t' seed w : Nat)
    (s1 s2 s3 : LoaderState) (r : ScheduleRec)
    (_hpre : run initLoader pre = some s1)
    (hfind : s1.recs.find? (progressable lift) = some r)
    (hone : r.sched.updates.length = 1)
    (happly : step s1 (Event.applyUpd lift t) = some s2)
    (hmid : run s2 mid = some s3)
    (hnores : Event.reset lift ∉ mid)
    (htrig : step s3 (Event.trigger lift t' seed w) ≠ none) :
    t + 28 ≤ t' := by
  simp only [step] at happly
  by_cases ht : s1.lastNow ≤ t
  · rw [if_pos ht] at happly
    cases hu : updateFirst (progressable lift) (applyRec t) s1.recs with
    | none => rw [hu] at happly; exact absurd happly (by simp)
    | some recs2 =>
        rw [hu] at happly
        simp only [Option.some.injEq] at happly
        subst happly
        obtain ⟨r2, hfr, hin⟩ := updateFirst_of_find _ _ s1.recs recs2 r hfind hu
        have hpr : progressable lift r = true := List.find?_some hfind
        have hlift : r.lift = lift := by
          simp only [progressable, Bool.and_eq_true, beq_iff_eq] at hpr
          exact hpr.1
        cases hup : r.sched.updates with
        | nil => rw [hup] at hone; simp at hone
        | cons u rest =>
            cases rest with
            | cons v vs =>
                rw [hup] at hone
                simp only [List.length_cons] at hone
                omega
            | nil =>
                simp only [applyRec, hup] at hfr
                by_cases hd : u.effectiveDate ≤ t
                · rw [if_pos hd] at hfr
                  simp only [List.isEmpty_nil, if_true, Option.some.injEq] at hfr
                  subst hfr
                  have hinv2 : HoldInv lift (t + 28) ⟨recs2, t⟩ := by
                    exact Or.inl ⟨_, hin, hlift, rfl, le_max_right _ _⟩
                  have hinv3 :=
                    run_preserves_holdInv lift (t + 28) mid _ s3 hinv2 hmid hnores
                  simp only [step] at htrig
                  by_cases hg : s3.lastNow ≤ t'
                      ∧ s3.recs.filter (isActiveFor lift) = []
                  · rcases hinv3 with ⟨r3, hr3, hl3, hst3, hb3⟩ | hlast
                    · exfalso
                      have hact : isActiveFor lift r3 = true := by
                        simp [isActiveFor, hl3, hst3]
                      exact (List.filter_eq_nil_iff.mp hg.2 r3 hr3) hact
                    · exact le_trans hlast hg.1
                  · rw [if_neg hg] at htrig
                    exact absurd rfl htrig
                · rw [if_neg hd] at hfr
                  exact absurd hfr (by simp)
  · rw [if_neg ht] at happly
    exact absurd happly (by simp)

/-- Claim C9, witness: a concrete run triggers lift 1 at day 0, applies the
five updates at days 0, 14, 35, 63 and 83, lets the hold elapse at day 111,
and only then can a trigger succeed: the hold delays it to 83 + 28 = 111. -/
theorem stepload_hold_blocks_retrigger_holds : 83 + 28 ≤ 111 :=
  stepload_hold_blocks_retrigger
    [Event.trigger 1 0 0 5, Event.applyUpd 1 0, Event.applyUpd 1 14,
      Event.applyUpd 1 35, Event.applyUpd 1 63]
    [Event.holdElapse 1 111] 1 83 111 0 5
    ⟨[⟨1, ⟨1, 5, [⟨1, 83⟩], [⟨3, 0⟩, ⟨4, 14⟩, ⟨2, 35⟩, ⟨5, 63⟩], 111⟩,
      ScheduleState.Progressing⟩], 63⟩
    ⟨[⟨1, ⟨1, 5, [], [⟨3, 0⟩, ⟨4, 14⟩, ⟨2, 35⟩, ⟨5, 63⟩, ⟨1, 83⟩], 111⟩,
      ScheduleState.Holding⟩], 83⟩
    ⟨[⟨1, ⟨1, 5, [], [⟨3, 0⟩, ⟨4, 14⟩, ⟨2, 35⟩, ⟨5, 63⟩, ⟨1, 83⟩], 111⟩,
      ScheduleState.Stable⟩], 111⟩
    ⟨1, ⟨1, 5, [⟨1, 83⟩], [⟨3, 0⟩, ⟨4, 14⟩, ⟨2, 35⟩, ⟨5, 63⟩], 111⟩,
      ScheduleState.Progressing⟩
    (by decide) (by decide) (by decide) (by decide) (by decide) (by decide)
    (by decide)
